import Mathlib

/-!
Verification of the attestation-tracking core of dora-proxy.

The definitions below are a shallow embedding of `proxy.go`:
`LastAttestCache` (Get / SetIfGreater), `hexBitlist`,
`validatorsForAttestation`, `fetchCommitteesForSlot` parsing,
the `processSlot` retry loop, the `Backfill` / `scanEpochRange`
enumeration, and the continuous scanner tick of `Start`.
Go's `uint64` values are modelled as `Nat`: all arithmetic involved
(slot counters, epoch division, indices) stays far below 2^64 and the
code guards the only potential underflows (`headEpoch - 2`, `epoch--`)
explicitly, so no wrap-around can occur in the modelled paths.
-/

/-! ## LastAttestCache (proxy.go lines 155-179)

The Go cache is `map[uint64]uint64` behind a mutex; a missing key is
distinguished via the comma-ok read in `SetIfGreater`, while `Get`
returns the zero value `0` for a missing key.  The mutex serializes
all calls, so any concurrent interleaving of calls is observationally
a sequence of atomic operations; we model the cache as a partial map
and sequences of `SetIfGreater` calls as lists of (index, slot) pairs.
-/

def Cache : Type := Nat → Option Nat

def Cache.empty : Cache := fun _ => none

/-- `Get` of proxy.go: map read, zero value `0` when the key is absent. -/
def Cache.get (c : Cache) (index : Nat) : Nat :=
  (c index).getD 0

/-- `SetIfGreater` of proxy.go: comma-ok read; write when the key is
absent or the new slot is strictly greater; returns whether it wrote. -/
def Cache.setIfGreater (c : Cache) (index slot : Nat) : Cache × Bool :=
  match c index with
  | none => (fun j => if j = index then some slot else c j, true)
  | some cur =>
    if slot > cur then (fun j => if j = index then some slot else c j, true)
    else (c, false)

/-- A sequence of `SetIfGreater` calls applied in order. -/
def Cache.applyOps (c : Cache) : List (Nat × Nat) → Cache
  | [] => c
  | (i, s) :: rest => Cache.applyOps (Cache.setIfGreater c i s).1 rest

lemma Cache.get_setIfGreater_le (c : Cache) (i s v : Nat) :
    c.get v ≤ (c.setIfGreater i s).1.get v := by
  unfold Cache.setIfGreater Cache.get
  cases h : c i with
  | none =>
    by_cases hv : v = i
    · subst hv; simp [h]
    · simp [hv]
  | some cur =>
    by_cases hgt : s > cur
    · by_cases hv : v = i
      · subst hv; simp [h, hgt]; omega
      · simp [hgt, hv]
    · simp [hgt]

lemma Cache.get_applyOps_le (c : Cache) (ops : List (Nat × Nat)) (v : Nat) :
    c.get v ≤ (c.applyOps ops).get v := by
  induction ops generalizing c with
  | nil => simp [Cache.applyOps]
  | cons op rest ih =>
    obtain ⟨i, s⟩ := op
    calc c.get v ≤ (c.setIfGreater i s).1.get v := c.get_setIfGreater_le i s v
      _ ≤ _ := ih _

lemma Cache.le_get_setIfGreater_self (c : Cache) (v s : Nat) :
    s ≤ (c.setIfGreater v s).1.get v := by
  unfold Cache.setIfGreater Cache.get
  cases h : c v with
  | none => simp
  | some cur =>
    by_cases hgt : s > cur
    · simp [hgt]
    · simp [hgt, h]; omega

/-- Slots of the calls in `ops` that target index `v`, in call order. -/
def slotsFor (ops : List (Nat × Nat)) (v : Nat) : List Nat :=
  (ops.filter (fun op => op.1 == v)).map Prod.snd

def maxList (l : List Nat) : Nat := l.foldr max 0

lemma Cache.get_setIfGreater_self (c : Cache) (v s : Nat) :
    (c.setIfGreater v s).1.get v = max (c.get v) s := by
  unfold Cache.setIfGreater Cache.get
  cases h : c v with
  | none => simp
  | some cur =>
    by_cases hgt : s > cur
    · simp [hgt, h]; omega
    · simp [hgt, h]; omega

lemma Cache.get_setIfGreater_other (c : Cache) (i s v : Nat) (hv : v ≠ i) :
    (c.setIfGreater i s).1.get v = c.get v := by
  unfold Cache.setIfGreater Cache.get
  cases h : c i with
  | none => simp [hv]
  | some cur => by_cases hgt : s > cur <;> simp [hgt, hv]

lemma Cache.get_applyOps (c : Cache) (ops : List (Nat × Nat)) (v : Nat) :
    (c.applyOps ops).get v = max (c.get v) (maxList (slotsFor ops v)) := by
  induction ops generalizing c with
  | nil => simp [Cache.applyOps, slotsFor, maxList]
  | cons op rest ih =>
    obtain ⟨i, s⟩ := op
    by_cases hiv : i = v
    · subst hiv
      rw [Cache.applyOps, ih, Cache.get_setIfGreater_self]
      simp only [slotsFor, maxList, List.filter_cons, beq_self_eq_true, if_pos,
        List.map_cons, List.foldr_cons]
      have : maxList (slotsFor rest i) = maxList (slotsFor rest i) := rfl
      simp [slotsFor, maxList] at this ⊢
      omega
    · rw [Cache.applyOps, ih, Cache.get_setIfGreater_other _ _ _ _ (fun hv => hiv hv.symm)]
      congr 1
      simp [slotsFor, List.filter_cons, hiv]

/-- Claim C4: `Get` returns 0 for an index never stored, otherwise the
highest slot recorded for it; `SetIfGreater(i, s)` writes `s` iff `s` is
strictly greater than the current value or no value exists for `i`, and
returns `true` exactly when it wrote (leaving the map untouched, at `i`
and elsewhere, when it returns `false`). -/
theorem C4_cache_contract :
    (∀ v, Cache.empty.get v = 0) ∧
    (∀ (ops : List (Nat × Nat)) (v : Nat), (∀ op ∈ ops, op.1 ≠ v) →
        (Cache.empty.applyOps ops).get v = 0) ∧
    (∀ (ops : List (Nat × Nat)) (v : Nat),
        (Cache.empty.applyOps ops).get v = maxList (slotsFor ops v)) ∧
    (∀ (c : Cache) (i s : Nat),
        ((c.setIfGreater i s).2 = true ↔ ∀ cur, c i = some cur → cur < s)) ∧
    (∀ (c : Cache) (i s : Nat),
        (c.setIfGreater i s).2 = true → (c.setIfGreater i s).1 i = some s) ∧
    (∀ (c : Cache) (i s : Nat),
        (c.setIfGreater i s).2 = false → (c.setIfGreater i s).1 = c) := by
  have hget : ∀ (ops : List (Nat × Nat)) (v : Nat),
      (Cache.empty.applyOps ops).get v = maxList (slotsFor ops v) := by
    intro ops v
    rw [Cache.get_applyOps]
    simp [Cache.empty, Cache.get]
  refine ⟨fun v => rfl, ?_, hget, ?_, ?_, ?_⟩
  · intro ops v hnone
    rw [hget]
    have : slotsFor ops v = [] := by
      simp only [slotsFor, List.map_eq_nil_iff, List.filter_eq_nil_iff]
      intro op hop
      simpa using hnone op hop
    simp [this, maxList]
  · intro c i s
    unfold Cache.setIfGreater
    cases h : c i with
    | none => simp
    | some cur =>
      by_cases hgt : s > cur
      · simp [hgt]
      · simp [hgt]
  · intro c i s
    unfold Cache.setIfGreater
    cases h : c i with
    | none => simp
    | some cur =>
      by_cases hgt : s > cur <;> simp [hgt]
  · intro c i s
    unfold Cache.setIfGreater
    cases h : c i with
    | none => simp
    | some cur =>
      by_cases hgt : s > cur <;> simp [hgt]

/-- Claim C4, concrete witness: instantiating the contract at explicit
inputs (an index never stored reads 0; a repeated equal slot does not
rewrite the entry). -/
theorem C4_cache_contract_witness :
    (Cache.empty.applyOps [(1, 5), (2, 7)]).get 3 = 0 ∧
    (((Cache.empty.setIfGreater 4 9).1.setIfGreater 4 9).1 =
      (Cache.empty.setIfGreater 4 9).1) :=
  ⟨C4_cache_contract.2.1 [(1, 5), (2, 7)] 3 (by decide),
   C4_cache_contract.2.2.2.2.2 (Cache.empty.setIfGreater 4 9).1 4 9 (by rfl)⟩

/-- Claim C1: across any sequence of `SetIfGreater` calls (the mutex
serializes every interleaving into such a sequence), `Get(v)` is
non-decreasing: no single call lowers any stored entry, no sequence of
calls lowers any stored entry, and after a call `SetIfGreater(v, s)`
every later `Get(v)` returns at least `s`. -/
theorem C1_cache_monotone :
    (∀ (c : Cache) (i s v : Nat), c.get v ≤ (c.setIfGreater i s).1.get v) ∧
    (∀ (c : Cache) (ops : List (Nat × Nat)) (v : Nat),
        c.get v ≤ (c.applyOps ops).get v) ∧
    (∀ (c : Cache) (post : List (Nat × Nat)) (v s : Nat),
        s ≤ (c.applyOps ((v, s) :: post)).get v) := by
  refine ⟨Cache.get_setIfGreater_le, Cache.get_applyOps_le, ?_⟩
  intro c post v s
  calc s ≤ (c.setIfGreater v s).1.get v := c.le_get_setIfGreater_self v s
    _ ≤ _ := Cache.get_applyOps_le _ post v

/-! ## hexBitlist (proxy.go lines 548-564)

Go lowercases the input, strips a `0x` prefix, hex-decodes
(`hex.DecodeString` fails on an odd digit count or any non-hex
character, and the caller maps any failure to `nil`), then emits the
bits of each byte least-significant first. -/

/-- Go's `encoding/hex` digit table: value of one hex character. -/
def fromHexChar (c : Char) : Option Nat :=
  if '0' ≤ c ∧ c ≤ '9' then some (c.toNat - '0'.toNat)
  else if 'a' ≤ c ∧ c ≤ 'f' then some (c.toNat - 'a'.toNat + 10)
  else if 'A' ≤ c ∧ c ≤ 'F' then some (c.toNat - 'A'.toNat + 10)
  else none

/-- `hex.DecodeString` over a character list: one byte per digit pair,
failing on an odd length or an invalid character. -/
def hexDecode : List Char → Option (List Nat)
  | [] => some []
  | [_] => none
  | c1 :: c2 :: rest =>
    match fromHexChar c1, fromHexChar c2, hexDecode rest with
    | some hi, some lo, some bs => some ((16 * hi + lo) :: bs)
    | _, _, _ => none

/-- `strings.TrimPrefix(s, "0x")` on an already-lowercased string. -/
def strip0x : List Char → List Char
  | '0' :: 'x' :: rest => rest
  | cs => cs

/-- The byte sequence `hexBitlist` decodes from its argument
(`strings.ToLower`, `strings.TrimPrefix`, `hex.DecodeString`),
`none` when `hex.DecodeString` errors. -/
def hexBytes (s : String) : Option (List Nat) :=
  hexDecode (strip0x (s.data.map Char.toLower))

/-- The 8 bits of one byte, least-significant first
(`((by >> i) & 1) == 1` for `i = 0..7`). -/
def byteBits (b : Nat) : List Bool :=
  (List.range 8).map (fun i => (b >>> i) &&& 1 == 1)

/-- `hexBitlist` of proxy.go. -/
def hexBitlist (s : String) : List Bool :=
  if s = "" then []
  else
    match hexBytes s with
    | none => []
    | some bs => bs.flatMap byteBits

lemma byteBits_length (b : Nat) : (byteBits b).length = 8 := by
  simp [byteBits]

lemma byteBits_getD (b j : Nat) (hj : j < 8) :
    (byteBits b).getD j false = b.testBit j := by
  interval_cases j <;>
    simp [byteBits, Nat.testBit, List.range_succ, List.getD]

lemma flatMap_byteBits_length (bs : List Nat) :
    (bs.flatMap byteBits).length = 8 * bs.length := by
  induction bs with
  | nil => simp
  | cons b rest ih =>
    simp [List.flatMap, byteBits_length] at ih ⊢
    omega

lemma flatMap_byteBits_getD (bs : List Nat) (i j : Nat)
    (hi : i < bs.length) (hj : j < 8) :
    (bs.flatMap byteBits).getD (8 * i + j) false = (bs.getD i 0).testBit j := by
  induction bs generalizing i with
  | nil => simp at hi
  | cons b rest ih =>
    cases i with
    | zero =>
      have hlt : 8 * 0 + j < (byteBits b).length := by
        rw [byteBits_length]; omega
      simp only [List.flatMap_cons]
      rw [List.getD_append _ _ _ _ hlt]
      simpa using byteBits_getD b j hj
    | succ i' =>
      have hlen : (byteBits b).length ≤ 8 * (i' + 1) + j := by
        rw [byteBits_length]; omega
      simp only [List.flatMap_cons]
      rw [List.getD_append_right _ _ _ _ hlen]
      have : 8 * (i' + 1) + j - (byteBits b).length = 8 * i' + j := by
        rw [byteBits_length]; omega
      rw [this, ih i' (by simpa using hi)]
      simp

/-- Claim C2: decoding a hex bit-list of N bytes yields exactly 8N
booleans, in byte order, LSB-first within each byte; `"0x03"` decodes
to `[true, true, false, false, false, false, false, false]`; empty or
malformed input yields the empty sequence (never an error). -/
theorem C2_hexBitlist_decode :
    (∀ (s : String) (bs : List Nat), hexBytes s = some bs →
        (hexBitlist s).length = 8 * bs.length ∧
        ∀ i j, i < bs.length → j < 8 →
          (hexBitlist s).getD (8 * i + j) false = (bs.getD i 0).testBit j) ∧
    hexBitlist "0x03" = [true, true, false, false, false, false, false, false] ∧
    (∀ s : String, hexBytes s = none → hexBitlist s = []) ∧
    hexBitlist "" = [] := by
  refine ⟨?_, by decide, ?_, rfl⟩
  · intro s bs h
    have hlist : hexBitlist s = bs.flatMap byteBits := by
      unfold hexBitlist
      by_cases hs : s = ""
      · subst hs
        have : bs = [] := by
          simpa [hexBytes, strip0x, hexDecode] using h
        simp [this]
      · simp [hs, h]
    rw [hlist]
    exact ⟨flatMap_byteBits_length bs, fun i j hi hj => flatMap_byteBits_getD bs i j hi hj⟩
  · intro s h
    unfold hexBitlist
    by_cases hs : s = ""
    · simp [hs]
    · simp [hs, h]

/-- Claim C2, concrete witness: `"0xff00"` decodes to the bytes
`[255, 0]`, hence 16 bits whose bit 8·1+0 is bit 0 of byte 1; the
malformed input `"0xzz"` decodes to the empty sequence. -/
theorem C2_hexBitlist_decode_witness :
    (hexBitlist "0xff00").length = 8 * 2 ∧
    (hexBitlist "0xff00").getD (8 * 1 + 0) false =
      (([255, 0] : List Nat).getD 1 0).testBit 0 ∧
    hexBitlist "0xzz" = [] := by
  have h1 := C2_hexBitlist_decode.1 "0xff00" [255, 0] (by decide)
  exact ⟨h1.1, h1.2 1 0 (by decide) (by decide),
    C2_hexBitlist_decode.2.2.1 "0xzz" (by decide)⟩

/-! ## validatorsForAttestation (proxy.go lines 521-546)

An attestation carries `aggregation_bits` (a failed string type
assertion in Go yields the zero value `""`) and an optional
`committee_bits`.  The committee assignment `idxToValidators` is a Go
map read: a missing committee index yields the empty list. -/

structure Attestation where
  aggregation_bits : String
  committee_bits : Option String

/-- `validatorsForAttestation` of proxy.go: with a present, non-empty
committee bitfield, collect set committee-bit positions in ascending
order, concatenate those committees' validator lists, and emit the
validator at each set aggregation-bit position that is in bounds;
otherwise no voters. -/
def validatorsForAttestation (att : Attestation)
    (idxToValidators : Nat → List Nat) : List Nat :=
  let aggBits := hexBitlist att.aggregation_bits
  match att.committee_bits with
  | some cbitsStr =>
    if cbitsStr = "" then []
    else
      let cbits := hexBitlist cbitsStr
      let included := cbits.enum.filterMap
        (fun p => if p.2 then some p.1 else none)
      let concat := included.flatMap idxToValidators
      aggBits.enum.filterMap (fun (p : Nat × Bool) =>
        if p.2 ∧ p.1 < concat.length then some (concat.getD p.1 0) else none)
  | none => []

/-- Spec-side reading of the multi-committee voter rule: committee-bit
positions that are set, in ascending order. -/
def includedCommitteesSpec (cbits : List Bool) : List Nat :=
  (List.range cbits.length).filter (fun i => cbits.getD i false)

/-- Spec-side reading of the multi-committee voter rule: for each set
aggregation bit at a position strictly below the length of the
concatenated included-committee validator lists, the validator at that
position; out-of-bounds set bits are ignored. -/
def votersSpecOf (aggStr cbitsStr : String) (assign : Nat → List Nat) :
    List Nat :=
  let cbits := hexBitlist cbitsStr
  let aggBits := hexBitlist aggStr
  let concat := (includedCommitteesSpec cbits).flatMap assign
  ((List.range aggBits.length).filter
      (fun p => aggBits.getD p false && decide (p < concat.length))).map
    (fun p => concat.getD p 0)

lemma filterMap_if_eq_filter_map {α : Type} (p : Nat → Bool) (f : Nat → α)
    (l : List Nat) :
    l.filterMap (fun a => if p a then some (f a) else none)
      = (l.filter p).map f := by
  induction l with
  | nil => rfl
  | cons a l ih =>
    by_cases h : p a <;> simp [List.filterMap_cons, List.filter_cons, h, ih]

lemma enumFrom_filterMap_bits {β : Type} (bits : List Bool) (n : Nat)
    (F : Nat → Option β) :
    (List.enumFrom n bits).filterMap (fun p => if p.2 then F p.1 else none)
      = (List.range bits.length).filterMap
          (fun i => if bits.getD i false then F (n + i) else none) := by
  induction bits generalizing n with
  | nil => simp
  | cons b bs ih =>
    rw [List.enumFrom_cons, List.filterMap_cons, List.length_cons,
      List.range_succ_eq_map, List.filterMap_cons, List.filterMap_map]
    have htail : (List.range bs.length).filterMap
        ((fun i => if (b :: bs).getD i false then F (n + i) else none) ∘ Nat.succ)
        = (List.range bs.length).filterMap
          (fun i => if bs.getD i false then F (n + 1 + i) else none) := by
      apply List.filterMap_congr
      intro i _
      have hn : n + Nat.succ i = n + 1 + i := by omega
      simp [Function.comp, hn]
    rw [htail, ← ih (n + 1)]
    cases b <;> simp

lemma included_eq_spec (cbits : List Bool) :
    cbits.enum.filterMap (fun p => if p.2 then some p.1 else none)
      = includedCommitteesSpec cbits := by
  rw [show cbits.enum = List.enumFrom 0 cbits from rfl,
    enumFrom_filterMap_bits cbits 0 some]
  have h : (List.range cbits.length).filterMap
      (fun i => if cbits.getD i false then some (0 + i) else none)
      = (List.range cbits.length).filterMap
        (fun i => if cbits.getD i false then some (id i) else none) := by
    apply List.filterMap_congr
    intro i _
    simp
  rw [h, filterMap_if_eq_filter_map, List.map_id, includedCommitteesSpec]

lemma agg_filterMap_eq_spec (aggBits : List Bool) (concat : List Nat) :
    aggBits.enum.filterMap (fun (p : Nat × Bool) =>
        if p.2 ∧ p.1 < concat.length then some (concat.getD p.1 0) else none)
      = ((List.range aggBits.length).filter
          (fun p => aggBits.getD p false && decide (p < concat.length))).map
          (fun p => concat.getD p 0) := by
  have h1 : aggBits.enum.filterMap (fun (p : Nat × Bool) =>
        if p.2 ∧ p.1 < concat.length then some (concat.getD p.1 0) else none)
      = aggBits.enum.filterMap (fun (p : Nat × Bool) =>
        if p.2 then
          (if p.1 < concat.length then some (concat.getD p.1 0) else none)
        else none) := by
    apply List.filterMap_congr
    intro p _
    by_cases hb : p.2 <;> by_cases hl : p.1 < concat.length <;> simp [hb, hl]
  rw [h1, show aggBits.enum = List.enumFrom 0 aggBits from rfl,
    enumFrom_filterMap_bits aggBits 0
      (fun i => if i < concat.length then some (concat.getD i 0) else none)]
  have h2 : (List.range aggBits.length).filterMap
      (fun i => if aggBits.getD i false then
          (if 0 + i < concat.length then some (concat.getD (0 + i) 0) else none)
        else none)
      = (List.range aggBits.length).filterMap
        (fun i => if (aggBits.getD i false && decide (i < concat.length)) then
            some (concat.getD i 0) else none) := by
    apply List.filterMap_congr
    intro i _
    by_cases hb : aggBits.getD i false <;> by_cases hl : i < concat.length <;>
      simp [hb, hl]
  rw [h2, filterMap_if_eq_filter_map]

lemma voters_eq_votersSpec (agg cb : String) (assign : Nat → List Nat)
    (hcb : cb ≠ "") :
    validatorsForAttestation ⟨agg, some cb⟩ assign = votersSpecOf agg cb assign := by
  unfold validatorsForAttestation votersSpecOf
  simp only [if_neg hcb, included_eq_spec, agg_filterMap_eq_spec]

/-- Claim C3: with a present, non-empty committee bitfield, the voter
list is exactly: set committee-bit positions in ascending order, their
validator lists concatenated in that order, and for each set
aggregation bit at an in-bounds position the validator at that
position, out-of-bounds set bits silently ignored; in particular
committee bits `0x01` with aggregation bits `0x03` over assignment
`0 maps to [42, 17]` yields `[42, 17]`, and an extra out-of-bounds set
aggregation bit (`0x07`) changes nothing. -/
theorem C3_voters_multi_committee :
    (∀ (agg cb : String) (assign : Nat → List Nat), cb ≠ "" →
        validatorsForAttestation ⟨agg, some cb⟩ assign
          = votersSpecOf agg cb assign) ∧
    validatorsForAttestation ⟨"0x03", some "0x01"⟩
        (fun i => if i = 0 then [42, 17] else []) = [42, 17] ∧
    validatorsForAttestation ⟨"0x07", some "0x01"⟩
        (fun i => if i = 0 then [42, 17] else []) = [42, 17] :=
  ⟨voters_eq_votersSpec, by decide, by decide⟩

/-- Claim C3, concrete witness: the refinement equality instantiated at
an explicit attestation and assignment. -/
theorem C3_voters_multi_committee_witness :
    validatorsForAttestation ⟨"0x0f", some "0x05"⟩
        (fun i => if i = 0 then [1, 2] else if i = 2 then [3] else [])
      = votersSpecOf "0x0f" "0x05"
        (fun i => if i = 0 then [1, 2] else if i = 2 then [3] else []) :=
  C3_voters_multi_committee.1 "0x0f" "0x05" _ (by decide)

/-- Claim C5: with the committee bitfield absent or the empty string,
the voter decoder yields no voters, whatever the aggregation bits and
the committee assignment. -/
theorem C5_single_committee_no_voters :
    (∀ (agg : String) (assign : Nat → List Nat),
        validatorsForAttestation ⟨agg, none⟩ assign = []) ∧
    (∀ (agg : String) (assign : Nat → List Nat),
        validatorsForAttestation ⟨agg, some ""⟩ assign = []) :=
  ⟨fun _ _ => rfl, fun _ _ => by simp [validatorsForAttestation]⟩

/-! ## Backfill enumeration (proxy.go lines 259-279 and 345-378)

`Backfill` computes `headEpoch = headSlot / 32` and the clamped end
epoch, then `scanEpochRange` enumerates epochs newest to oldest and,
within each epoch, slots `epoch*32+31` down to `epoch*32`, breaking
after the end epoch and after epoch 0 (the explicit underflow guard).
The enumeration order is modelled as the emitted job list. -/

def slotsPerEpoch : Nat := 32

/-- The inner slot loop of `scanEpochRange`: `n` slots descending,
ending at `startSlot` (Go runs `slot` from `startSlot+n-1` down to
`startSlot`). -/
def descSlots (startSlot : Nat) : Nat → List Nat
  | 0 => []
  | n + 1 => (startSlot + n) :: descSlots startSlot n

/-- One epoch's slots in emission order, `epoch*32+31` down to `epoch*32`. -/
def epochSlots (epoch : Nat) : List Nat :=
  descSlots (epoch * slotsPerEpoch) slotsPerEpoch

/-- The producer loop of `scanEpochRange`: epochs newest to oldest,
breaking once `endEpoch` has been produced or epoch 0 has been
produced. -/
def scanEpochsList : Nat → Nat → List Nat
  | 0, _ => epochSlots 0
  | e + 1, endEpoch =>
    epochSlots (e + 1) ++
      (if e + 1 = endEpoch then [] else scanEpochsList e endEpoch)

/-- `Backfill` of proxy.go, reduced to the slot jobs it enumerates:
`headEpoch = headSlot / 32`, end epoch `headEpoch - 2` clamped at 0. -/
def backfillSlots (headSlot : Nat) : List Nat :=
  let headEpoch := headSlot / slotsPerEpoch
  let endEpoch := if headEpoch ≥ 2 then headEpoch - 2 else 0
  scanEpochsList headEpoch endEpoch

/-- Spec-side reading: the enumerated epochs are `E` down to
`max 0 (E-2)`, newest first. -/
def backfillEpochsSpec (e : Nat) : List Nat :=
  if e ≥ 2 then [e, e - 1, e - 2] else if e = 1 then [1, 0] else [0]

/-- Spec-side reading: within an epoch, the 32 slots from highest to
lowest. -/
def epochSlotsSpec (e : Nat) : List Nat :=
  ((List.range 32).map (fun i => e * 32 + i)).reverse

def backfillSlotsSpec (headSlot : Nat) : List Nat :=
  (backfillEpochsSpec (headSlot / 32)).flatMap epochSlotsSpec

lemma descSlots_eq_reverse_range (s n : Nat) :
    descSlots s n = ((List.range n).map (fun i => s + i)).reverse := by
  induction n with
  | zero => rfl
  | succ n ih =>
    rw [descSlots, ih, List.range_succ]
    simp

lemma epochSlots_eq_spec (e : Nat) : epochSlots e = epochSlotsSpec e := by
  rw [epochSlots, epochSlotsSpec, slotsPerEpoch, descSlots_eq_reverse_range]

lemma descSlots_length (s n : Nat) : (descSlots s n).length = n := by
  induction n with
  | zero => rfl
  | succ n ih => simp [descSlots, ih]

lemma scanEpochsList_self (e : Nat) : scanEpochsList e e = epochSlots e := by
  cases e with
  | zero => rfl
  | succ e => simp [scanEpochsList]

/-- Claim C6: `Backfill` enumerates exactly the epochs from
`headSlot / 32` down to `max 0 (headSlot / 32 - 2)`, newest first, each
epoch as its 32 slots from highest to lowest; 96 slots when the head
epoch is at least 2, with the lower bound clamped to epoch 0 (no
underflow) otherwise. -/
theorem C6_backfill_window :
    (∀ headSlot : Nat, backfillSlots headSlot = backfillSlotsSpec headSlot) ∧
    (∀ headSlot : Nat, headSlot / 32 ≥ 2 →
        (backfillSlots headSlot).length = 96) := by
  have hwin : ∀ e : Nat, scanEpochsList e (if e ≥ 2 then e - 2 else 0)
      = (backfillEpochsSpec e).flatMap epochSlotsSpec := by
    intro e
    rcases Nat.lt_or_ge e 2 with h2 | h2
    · interval_cases e <;>
        simp [scanEpochsList, backfillEpochsSpec, epochSlots_eq_spec]
    · obtain ⟨m, rfl⟩ : ∃ m, e = m + 2 := ⟨e - 2, by omega⟩
      have h1 : m + 2 ≠ m := by omega
      have h2' : m + 1 ≠ m := by omega
      rw [if_pos (by omega : m + 2 ≥ 2)]
      rw [show scanEpochsList (m + 2) (m + 2 - 2)
          = epochSlots (m + 2) ++ (epochSlots (m + 1) ++ scanEpochsList m m) by
        simp [scanEpochsList, h1, h2']]
      rw [scanEpochsList_self]
      simp [backfillEpochsSpec, epochSlots_eq_spec]
  have hmain : ∀ headSlot : Nat,
      backfillSlots headSlot = backfillSlotsSpec headSlot := by
    intro headSlot
    unfold backfillSlots backfillSlotsSpec
    rw [show slotsPerEpoch = 32 from rfl]
    exact hwin (headSlot / 32)
  refine ⟨hmain, ?_⟩
  intro headSlot hh
  rw [hmain, backfillSlotsSpec, backfillEpochsSpec, if_pos hh]
  simp [epochSlotsSpec]

/-- Claim C6, concrete witness: at head slot 70 (head epoch 2) the
enumeration matches the spec-side window and has 96 slots. -/
theorem C6_backfill_window_witness :
    backfillSlots 70 = backfillSlotsSpec 70 ∧ (backfillSlots 70).length = 96 :=
  ⟨C6_backfill_window.1 70, C6_backfill_window.2 70 (by decide)⟩

/-! ## processSlot block-fetch retry (proxy.go lines 388-470)

The fetch loop runs `attempt = 1..3`; a successful (200) response
breaks out, otherwise the loop returns "no block" once at the last
attempt, else waits `attempt * 100` ms unless the caller's context is
already done (in which case it returns "no block" immediately).  The
per-attempt outcome is the oracle `success`; `ctxDone attempt` says
whether the context deadline has expired when the wait after `attempt`
starts.  The result records whether a block was obtained, how many
attempts ran, and the backoff waits performed (in ms). -/

def maxAttempts : Nat := 3

def fetchRetryGo (success ctxDone : Nat → Bool) :
    Nat → Nat → Bool × Nat × List Nat
  | _, 0 => (false, 0, [])
  | attempt, fuel + 1 =>
    if success attempt then (true, attempt, [])
    else if attempt = maxAttempts then (false, attempt, [])
    else if ctxDone attempt then (false, attempt, [])
    else
      let r := fetchRetryGo success ctxDone (attempt + 1) fuel
      (r.1, r.2.1, attempt * 100 :: r.2.2)

/-- The block-fetch retry loop of `processSlot`:
(got a block, attempts made, backoff waits in ms). -/
def fetchBlockRetry (success ctxDone : Nat → Bool) : Bool × Nat × List Nat :=
  fetchRetryGo success ctxDone 1 maxAttempts

/-- The per-slot update count of `processSlot`, downstream of the
fetch: "no block" or no attestations yields 0 updates; otherwise each
attestation's voters are applied to the cache with
`SetIfGreater(voter, slot)`, counting successful writes. -/
def applyVoters (c : Cache) (slot : Nat) (voters : List Nat) : Cache × Nat :=
  voters.foldl
    (fun acc vi =>
      let r := acc.1.setIfGreater vi slot
      (r.1, acc.2 + if r.2 then 1 else 0))
    (c, 0)

def processAttestations (atts : List Attestation)
    (assign : Nat → List Nat) (c : Cache) (slot : Nat) : Cache × Nat :=
  atts.foldl
    (fun acc att =>
      let r := applyVoters acc.1 slot (validatorsForAttestation att assign)
      (r.1, acc.2 + r.2))
    (c, 0)

/-- `processSlot`, with the fetched attestations abstracted as
`none` (= "no block" after retry exhaustion, or a block with no
attestation list) or `some atts`. -/
def processSlotModel (fetched : Option (List Attestation))
    (assign : Nat → List Nat) (c : Cache) (slot : Nat) : Cache × Nat :=
  match fetched with
  | none => (c, 0)
  | some atts => processAttestations atts assign c slot

/-- The sequential slot loop shared by the scanners: each slot is
processed with its own fetched data and committee assignment, updates
accumulate across slots. -/
def scanSlotsModel (fetchAtts : Nat → Option (List Attestation))
    (assign : Nat → Nat → List Nat) (c : Cache) :
    List Nat → Cache × Nat
  | [] => (c, 0)
  | s :: rest =>
    let r1 := processSlotModel (fetchAtts s) (assign s) c s
    let r2 := scanSlotsModel fetchAtts assign r1.1 rest
    (r2.1, r1.2 + r2.2)

lemma fetchRetryGo_attempts_le (success ctxDone : Nat → Bool) :
    ∀ (fuel attempt : Nat),
      (fetchRetryGo success ctxDone attempt fuel).2.1 ≤ attempt + fuel - 1 := by
  intro fuel
  induction fuel with
  | zero => intro attempt; simp [fetchRetryGo]
  | succ fuel ih =>
    intro attempt
    rw [fetchRetryGo]
    by_cases hs : success attempt
    · simp [hs]
    · by_cases hm : attempt = maxAttempts
      · subst hm; simp [hs]
      · by_cases hd : ctxDone attempt
        · simp [hs, hm, hd]
        · have := ih (attempt + 1)
          simp [hs, hm, hd]
          omega

lemma fetchRetryGo_attempts_ge (success ctxDone : Nat → Bool) :
    ∀ (fuel attempt : Nat), 1 ≤ fuel → attempt + fuel = maxAttempts + 1 →
      attempt ≤ (fetchRetryGo success ctxDone attempt fuel).2.1 := by
  intro fuel
  induction fuel with
  | zero => omega
  | succ fuel ih =>
    intro attempt _ hinv
    rw [fetchRetryGo]
    by_cases hs : success attempt
    · simp [hs]
    · by_cases hm : attempt = maxAttempts
      · subst hm; simp [hs]
      · by_cases hd : ctxDone attempt
        · simp [hs, hm, hd]
        · have hfuel1 : 1 ≤ fuel := by
            have : attempt < maxAttempts := by
              have hle : attempt ≤ maxAttempts := by omega
              omega
            omega
          have := ih (attempt + 1) hfuel1 (by omega)
          simp [hs, hm, hd]
          omega

lemma fetchRetryGo_waits (success ctxDone : Nat → Bool) :
    ∀ (fuel attempt : Nat), attempt + fuel = maxAttempts + 1 →
      (fetchRetryGo success ctxDone attempt fuel).2.2
        = (List.range' attempt
            ((fetchRetryGo success ctxDone attempt fuel).2.1 - attempt)).map
            (fun a => a * 100) := by
  intro fuel
  induction fuel with
  | zero => intro attempt _; simp [fetchRetryGo]
  | succ fuel ih =>
    intro attempt hinv
    rw [fetchRetryGo]
    by_cases hs : success attempt
    · simp [hs]
    · by_cases hm : attempt = maxAttempts
      · subst hm; simp [hs]
      · by_cases hd : ctxDone attempt
        · simp [hs, hm, hd]
        · have hfuel1 : 1 ≤ fuel := by
            have : attempt < maxAttempts := by omega
            omega
          have hge := fetchRetryGo_attempts_ge success ctxDone fuel
            (attempt + 1) hfuel1 (by omega)
          have hw := ih (attempt + 1) (by omega)
          simp only [hs, hm, hd, Bool.false_eq_true, if_false, ite_false,
            if_neg, not_false_eq_true]
          have hn : (fetchRetryGo success ctxDone (attempt + 1) fuel).2.1 - attempt
              = ((fetchRetryGo success ctxDone (attempt + 1) fuel).2.1
                  - (attempt + 1)) + 1 := by omega
          rw [hw, hn, List.range'_succ, List.map_cons]

/-- Claim C7: the block fetch makes at most 3 attempts; after failed
attempt `a` it waits `a * 100` ms (the waits performed are exactly
`100, 200, ...` up to the last non-final attempt), unless the caller's
deadline has expired, in which case it aborts immediately with "no
block"; when all 3 attempts fail `processSlot` contributes 0 updates
and the surrounding multi-slot scan continues unaffected. -/
theorem C7_fetch_retry_resilience :
    (∀ success ctxDone : Nat → Bool,
        (fetchBlockRetry success ctxDone).2.1 ≤ 3) ∧
    (∀ success ctxDone : Nat → Bool,
        (fetchBlockRetry success ctxDone).2.2
          = (List.range' 1 ((fetchBlockRetry success ctxDone).2.1 - 1)).map
              (fun a => a * 100)) ∧
    (∀ success ctxDone : Nat → Bool, success 1 = false → ctxDone 1 = true →
        fetchBlockRetry success ctxDone = (false, 1, [])) ∧
    (∀ success ctxDone : Nat → Bool, (∀ a, success a = false) →
        (∀ a, ctxDone a = false) →
        fetchBlockRetry success ctxDone = (false, 3, [100, 200])) ∧
    (∀ (assign : Nat → List Nat) (c : Cache) (slot : Nat),
        processSlotModel none assign c slot = (c, 0)) ∧
    (∀ (fetchAtts : Nat → Option (List Attestation))
        (assign : Nat → Nat → List Nat) (c : Cache) (s : Nat)
        (rest : List Nat), fetchAtts s = none →
        scanSlotsModel fetchAtts assign c (s :: rest)
          = scanSlotsModel fetchAtts assign c rest) := by
  refine ⟨?_, ?_, ?_, ?_, fun _ _ _ => rfl, ?_⟩
  · intro success ctxDone
    have := fetchRetryGo_attempts_le success ctxDone maxAttempts 1
    simpa [fetchBlockRetry, maxAttempts] using this
  · intro success ctxDone
    exact fetchRetryGo_waits success ctxDone maxAttempts 1 rfl
  · intro success ctxDone hs hd
    simp [fetchBlockRetry, fetchRetryGo, maxAttempts, hs, hd]
  · intro success ctxDone hs hd
    simp [fetchBlockRetry, fetchRetryGo, maxAttempts, hs 1, hs 2, hs 3,
      hd 1, hd 2]
  · intro fetchAtts assign c s rest hnone
    simp [scanSlotsModel, processSlotModel, hnone]

/-- Claim C7, concrete witness: with every attempt failing and no
deadline, three attempts run with waits 100 ms then 200 ms and no
block results; with the deadline already expired the fetch aborts
after one attempt; a slot with no block adds nothing to a scan. -/
theorem C7_fetch_retry_resilience_witness :
    (fetchBlockRetry (fun _ => false) (fun _ => false) = (false, 3, [100, 200])) ∧
    (fetchBlockRetry (fun _ => false) (fun _ => true) = (false, 1, [])) ∧
    (scanSlotsModel (fun _ => none) (fun _ _ => []) Cache.empty [5, 6]
      = scanSlotsModel (fun _ => none) (fun _ _ => []) Cache.empty [6]) :=
  ⟨C7_fetch_retry_resilience.2.2.2.1 (fun _ => false) (fun _ => false)
      (fun _ => rfl) (fun _ => rfl),
   C7_fetch_retry_resilience.2.2.1 (fun _ => false) (fun _ => true) rfl rfl,
   C7_fetch_retry_resilience.2.2.2.2.2 (fun _ => none) (fun _ _ => [])
      Cache.empty 5 [6] rfl⟩

/-! ## scanEpochRange deadline behavior (proxy.go lines 318-386)

The producer checks the context before every job emission and stops
emitting once it is done; workers check the context before every job
and exit once it is done, so jobs already queued at expiry are
dropped; totals accumulate atomically; the function finally returns
`ctx.Err()`, non-nil exactly when the context expired.  The
producer/worker-pool run is modelled as the serialized job stream:
`expired t` says whether the shared deadline has expired before the
`t`-th slot job; per-slot update counts are the oracle `u`. -/

def updatesTotal (u : Nat → Nat) (slots : List Nat) : Nat := (slots.map u).sum

def scanRunGo (expired : Nat → Bool) (u : Nat → Nat) :
    List Nat → Nat → Nat × Nat × Bool
  | [], t => (0, 0, expired t)
  | slot :: rest, t =>
    if expired t then (0, 0, true)
    else
      let r := scanRunGo expired u rest (t + 1)
      (r.1 + 1, r.2.1 + u slot, r.2.2)

/-- `scanEpochRange` over an already-enumerated slot list:
(slots scanned, updates applied, error returned). -/
def scanEpochRangeModel (expired : Nat → Bool) (u : Nat → Nat)
    (slots : List Nat) : Nat × Nat × Bool :=
  scanRunGo expired u slots 0

lemma scanRunGo_no_expiry (expired : Nat → Bool) (u : Nat → Nat)
    (hnone : ∀ t, expired t = false) :
    ∀ (slots : List Nat) (t : Nat),
      scanRunGo expired u slots t = (slots.length, updatesTotal u slots, false) := by
  intro slots
  induction slots with
  | nil => intro t; simp [scanRunGo, hnone, updatesTotal]
  | cons slot rest ih =>
    intro t
    rw [scanRunGo]
    simp only [hnone, Bool.false_eq_true, if_false, ite_false, if_neg,
      not_false_eq_true]
    rw [ih (t + 1)]
    simp [updatesTotal]
    omega

lemma scanRunGo_expiry (expired : Nat → Bool) (u : Nat → Nat) :
    ∀ (slots : List Nat) (t k : Nat), k < slots.length →
      (∀ d, d < k → expired (t + d) = false) → expired (t + k) = true →
      scanRunGo expired u slots t
        = (k, updatesTotal u (slots.take k), true) := by
  intro slots
  induction slots with
  | nil => intro t k hk; simp at hk
  | cons slot rest ih =>
    intro t k hk hfresh hexp
    rw [scanRunGo]
    cases k with
    | zero =>
      rw [if_pos (by simpa using hexp)]
      simp [updatesTotal]
    | succ k' =>
      have h0 : expired t = false := by simpa using hfresh 0 (by omega)
      rw [if_neg (by simp [h0])]
      rw [ih (t + 1) k' (by simpa using hk)
        (fun d hd => by
          have h := hfresh (d + 1) (by omega)
          have he : t + (d + 1) = t + 1 + d := by omega
          rwa [he] at h)
        (by
          have he : t + (k' + 1) = t + 1 + k' := by omega
          rwa [he] at hexp)]
      simp [updatesTotal]
      omega

/-- Claim C8: if the deadline never expires, the backfill scan over the
enumerated slots returns the full totals with no error; if it expires
before the `k`-th job (mid-scan), exactly the first `k` slots are
fetched — none after expiry — and the partial totals are returned
together with a non-nil error. -/
theorem C8_backfill_deadline :
    (∀ (expired : Nat → Bool) (u : Nat → Nat) (slots : List Nat),
        (∀ t, expired t = false) →
        scanEpochRangeModel expired u slots
          = (slots.length, updatesTotal u slots, false)) ∧
    (∀ (expired : Nat → Bool) (u : Nat → Nat) (slots : List Nat) (k : Nat),
        k < slots.length → (∀ d, d < k → expired d = false) →
        expired k = true →
        scanEpochRangeModel expired u slots
          = (k, updatesTotal u (slots.take k), true)) := by
  constructor
  · intro expired u slots hnone
    exact scanRunGo_no_expiry expired u hnone slots 0
  · intro expired u slots k hk hfresh hexp
    exact scanRunGo_expiry expired u slots 0 k hk
      (fun d hd => by simpa using hfresh d hd) (by simpa using hexp)

/-- Claim C8, concrete witness: a 4-slot scan with the deadline
expiring before the third job returns totals for the first two slots
and an error; with no expiry it returns full totals and no error. -/
theorem C8_backfill_deadline_witness :
    scanEpochRangeModel (fun t => decide (2 ≤ t)) (fun s => s) [10, 20, 30, 40]
      = (2, 30, true) ∧
    scanEpochRangeModel (fun _ => false) (fun s => s) [10, 20, 30, 40]
      = (4, 100, false) :=
  ⟨C8_backfill_deadline.2 (fun t => decide (2 ≤ t)) (fun s => s)
      [10, 20, 30, 40] 2 (by decide) (by decide) (by decide),
   C8_backfill_deadline.1 (fun _ => false) (fun s => s) [10, 20, 30, 40]
      (fun _ => rfl)⟩

/-! ## fetchCommitteesForSlot (proxy.go lines 472-519)

One request is issued (the model consumes exactly one response); a
network error, non-200 status, or JSON decode failure each return the
nil map.  On success, entries with a non-numeric committee index are
skipped and non-numeric validator strings within an entry are skipped;
Go map reads on a nil or missing key yield the empty list. -/

/-- `strconv.ParseUint(s, 10, 64)`: non-empty, all decimal digits,
value below 2^64. -/
def parseUint64 (s : String) : Option Nat :=
  if s.data ≠ [] ∧ s.data.all (fun c => decide ('0' ≤ c ∧ c ≤ '9')) then
    let n := s.data.foldl (fun acc c => acc * 10 + (c.toNat - '0'.toNat)) 0
    if n < 2 ^ 64 then some n else none
  else none

/-- The decoded committees payload (`data: [entries]`), or `failure`
for any network error, non-200 status, or undecodable body. -/
inductive CommitteesResponse where
  | failure
  | success (entries : List (String × List String))

/-- The entry-parsing loop of `fetchCommitteesForSlot`: skip entries
whose index does not parse, skip validator strings that do not parse. -/
def parseCommittees (entries : List (String × List String)) :
    List (Nat × List Nat) :=
  entries.filterMap (fun e =>
    match parseUint64 e.1 with
    | none => none
    | some idx => some (idx, e.2.filterMap parseUint64))

/-- `fetchCommitteesForSlot` of proxy.go over one response: `none` is
Go's nil map (any failure), `some` the built map entries in insertion
order. -/
def fetchCommitteesForSlot : CommitteesResponse → Option (List (Nat × List Nat))
  | .failure => none
  | .success entries => some (parseCommittees entries)

/-- A Go map read over the build result: later inserts overwrite
earlier ones, missing keys (and the nil map) read as the empty list. -/
def assignmentOf (r : Option (List (Nat × List Nat))) : Nat → List Nat :=
  match r with
  | none => fun _ => []
  | some l => l.foldl (fun f e i => if i = e.1 then e.2 else f i) (fun _ => [])

/-- Claim C9: resolving committees is a single request with no retry
(the model consumes exactly one response); any failure yields the
absent assignment, and the voter decoder against the absent assignment
yields no voters for any attestation. -/
theorem C9_committees_degrade :
    (fetchCommitteesForSlot .failure = none) ∧
    (∀ i, assignmentOf none i = []) ∧
    (∀ att : Attestation,
        validatorsForAttestation att (assignmentOf none) = []) := by
  refine ⟨rfl, fun _ => rfl, ?_⟩
  intro att
  unfold validatorsForAttestation
  cases hcb : att.committee_bits with
  | none => rfl
  | some cb =>
    by_cases hemp : cb = ""
    · simp [hemp]
    · have hconcat : ∀ l : List Nat, l.flatMap (assignmentOf none) = [] := by
        intro l
        induction l with
        | nil => rfl
        | cons a l ih => simp [assignmentOf]
      simp [hemp, hconcat]

/-! ## Continuous scanner tick (proxy.go lines 198-255)

One tick of `Start`'s loop after a successful head resolution:
`start = lastScannedSlot + 1`, or `head` on the very first run
(`lastScannedSlot == 0`); if `start > head` the tick does nothing;
otherwise the slot loop runs `start..head` checking the fresh 90 s
context before each slot, and on exit — completed or aborted —
`lastScannedSlot` is set to `head`.  `expired t` says whether that
context is done before the `t`-th iteration of the slot loop. -/

structure TickResult where
  entered : Bool
  newLast : Nat
  rangeStart : Nat
  rangeEnd : Nat
  processed : List Nat
  aborted : Bool

/-- The `slotsLoop` of `Start`: from slot `s`, `n` slots remaining,
`t` iterations done; returns the slots actually processed and whether
the loop aborted on the expired context. -/
def slotsLoopGo (expired : Nat → Bool) : Nat → Nat → Nat → List Nat × Bool
  | _, 0, _ => ([], false)
  | s, n + 1, t =>
    if expired t then ([], true)
    else
      let r := slotsLoopGo expired (s + 1) n (t + 1)
      (s :: r.1, r.2)

/-- One tick of the continuous scanner. -/
def tickModel (last head : Nat) (expired : Nat → Bool) : TickResult :=
  let start := if last = 0 then head else last + 1
  if start > head then
    ⟨false, last, start, head, [], false⟩
  else
    let r := slotsLoopGo expired start (head + 1 - start) 0
    ⟨true, head, start, head, r.1, r.2⟩

/-- The scanner cursor after a further sequence of ticks, each given
by its observed head and its context-expiry oracle. -/
def runCursor (last : Nat) : List (Nat × (Nat → Bool)) → Nat
  | [] => last
  | p :: rest => runCursor (tickModel last p.1 p.2).newLast rest

lemma slotsLoopGo_mem_ge (expired : Nat → Bool) :
    ∀ (n s t x : Nat), x ∈ (slotsLoopGo expired s n t).1 → s ≤ x := by
  intro n
  induction n with
  | zero => intro s t x hx; simp [slotsLoopGo] at hx
  | succ n ih =>
    intro s t x hx
    rw [slotsLoopGo] at hx
    by_cases he : expired t
    · simp [he] at hx
    · simp [he] at hx
      rcases hx with rfl | hx
      · exact Nat.le_refl x
      · exact Nat.le_of_succ_le (ih (s + 1) (t + 1) x hx)

lemma tickModel_processed_ge (last head : Nat) (expired : Nat → Bool) :
    ∀ x ∈ (tickModel last head expired).processed,
      (tickModel last head expired).rangeStart ≤ x := by
  intro x hx
  unfold tickModel at hx ⊢
  by_cases hgt : (if last = 0 then head else last + 1) > head
  · simp [hgt] at hx
  · simp only [hgt, if_false, ite_false, if_neg, not_false_eq_true] at hx ⊢
    exact slotsLoopGo_mem_ge expired _ _ 0 x hx

lemma tickModel_newLast_ge (last head : Nat) (expired : Nat → Bool) :
    last ≤ (tickModel last head expired).newLast := by
  unfold tickModel
  by_cases hgt : (if last = 0 then head else last + 1) > head
  · simp [hgt]
  · simp only [hgt, if_false, ite_false, if_neg, not_false_eq_true]
    by_cases h0 : last = 0
    · simp [h0] at hgt ⊢
    · simp [h0] at hgt ⊢
      omega

lemma runCursor_ge (ticks : List (Nat × (Nat → Bool))) :
    ∀ last : Nat, last ≤ runCursor last ticks := by
  induction ticks with
  | nil => intro last; exact Nat.le_refl last
  | cons p rest ih =>
    intro last
    calc last ≤ (tickModel last p.1 p.2).newLast :=
          tickModel_newLast_ge last p.1 p.2
      _ ≤ _ := ih _

/-- Claim C10 (amended), main theorem:
on the very first tick (`lastScannedSlot == 0`) the scan range is the
single slot `head`; every tick that enters scanning — whether the slot
loop completes or aborts on the 90 s deadline — exits with
`lastScannedSlot = head`; and, provided that head is nonzero, no slot
at or below it (in particular none skipped because the deadline
expired) is ever processed by any later tick. -/
theorem C10_scanner_cursor :
    (∀ (head : Nat) (expired : Nat → Bool),
        (tickModel 0 head expired).entered = true ∧
        (tickModel 0 head expired).rangeStart = head ∧
        (tickModel 0 head expired).rangeEnd = head) ∧
    (∀ (last head : Nat) (expired : Nat → Bool),
        (tickModel last head expired).entered = true →
        (tickModel last head expired).newLast = head) ∧
    (∀ (last head : Nat) (expired : Nat → Bool),
        (tickModel last head expired).entered = true → head ≠ 0 →
        ∀ s ≤ head, ∀ (later : List (Nat × (Nat → Bool)))
          (head2 : Nat) (expired2 : Nat → Bool),
          s ∉ (tickModel (runCursor (tickModel last head expired).newLast later)
                head2 expired2).processed) := by
  have hentered_newLast : ∀ (last head : Nat) (expired : Nat → Bool),
      (tickModel last head expired).entered = true →
      (tickModel last head expired).newLast = head := by
    intro last head expired h
    unfold tickModel at h ⊢
    by_cases hgt : (if last = 0 then head else last + 1) > head
    · simp [hgt] at h
    · simp [hgt]
  refine ⟨?_, hentered_newLast, ?_⟩
  · intro head expired
    unfold tickModel
    simp
  · intro last head expired hent h0 s hs later head2 expired2 hmem
    have hcur : head ≤ runCursor (tickModel last head expired).newLast later := by
      calc head = (tickModel last head expired).newLast :=
            (hentered_newLast last head expired hent).symm
        _ ≤ _ := runCursor_ge later _
    set c := runCursor (tickModel last head expired).newLast later with hc
    have hge := tickModel_processed_ge c head2 expired2 s hmem
    have hc0 : c ≠ 0 := by omega
    unfold tickModel at hge hmem
    by_cases hgt : (if c = 0 then head2 else c + 1) > head2
    · simp [hgt] at hmem
    · simp only [hgt, if_false, ite_false, if_neg, not_false_eq_true] at hge
      rw [if_neg hc0] at hge
      omega

/-- Claim C10, concrete witness: the amended theorem instantiated on a
tick at cursor 7, head 9, whose deadline expires after one slot
(slot 8 is processed, slot 9 skipped), followed by two further ticks:
slot 9 is not processed by the following tick at head 12. -/
theorem C10_scanner_cursor_witness :
    ((tickModel 0 5 (fun _ => false)).rangeStart = 5) ∧
    ((tickModel 7 9 (fun t => decide (1 ≤ t))).newLast = 9) ∧
    ((tickModel 7 9 (fun t => decide (1 ≤ t))).processed = [8]) ∧
    (9 ∉ (tickModel (runCursor (tickModel 7 9 (fun t => decide (1 ≤ t))).newLast
        [(11, fun _ => false)]) 12 (fun _ => false)).processed) :=
  ⟨(C10_scanner_cursor.1 5 (fun _ => false)).2.1,
   C10_scanner_cursor.2.1 7 9 (fun t => decide (1 ≤ t)) (by decide),
   by decide,
   C10_scanner_cursor.2.2 7 9 (fun t => decide (1 ≤ t)) (by decide)
     (by decide) 9 (by decide) [(11, fun _ => false)] 12 (fun _ => false)⟩

/-- Claim C10, counterexample to the unamended "never revisited"
consequence: a first tick observing head 0 enters scanning with range
containing exactly slot 0, the expired deadline skips it, and the
cursor is set to the observed head 0 — so the next tick, again
observing head 0, rescans the single-slot range and processes the
skipped slot 0 again. -/
theorem C10_revisit_counterexample :
    ((tickModel 0 0 (fun _ => true)).entered = true) ∧
    ((tickModel 0 0 (fun _ => true)).rangeStart = 0) ∧
    ((tickModel 0 0 (fun _ => true)).rangeEnd = 0) ∧
    ((tickModel 0 0 (fun _ => true)).aborted = true) ∧
    ((tickModel 0 0 (fun _ => true)).processed = []) ∧
    ((tickModel 0 0 (fun _ => true)).newLast = 0) ∧
    (0 ∈ (tickModel (tickModel 0 0 (fun _ => true)).newLast 0
        (fun _ => false)).processed) := by
  refine ⟨rfl, rfl, rfl, rfl, rfl, rfl, ?_⟩
  show 0 ∈ [0]
  simp
